import Mathlib

/-!
# Verification of the numerical-integration engine

Shallow embedding of the quadrature and convergence-analysis engine of the
Numerical Integration Dashboard, together with the expression-normalization
and UI-control logic of its frontend.  The backend quadrature code
(`trapezoidal_rule`, `midpoint_rule`, `simpsons_rule`, `analyze_convergence`,
`get_visualization_data`, `SafeExpressionParser`) is embedded from the Python
sources reproduced in `Project_Report.md`; machine floats are modelled by
exact rationals.  The frontend code (`normalizeForBackend`,
`handleCustomNChange`, `handleCustomNBlur`, `handleMethodToggle`) is embedded
from the JavaScript sources.
-/

namespace NumInt

/-- The three integration methods, dispatched by a closed enumeration. -/
inductive Method
  | trapezoidal
  | midpoint
  | simpson
deriving DecidableEq, Repr

/-- Simpson coercion of the subdivision count: an odd `n` is silently
incremented to `n + 1` (`if n % 2 != 0: n += 1` in `simpsons_rule`). -/
def evenCoerce (n : ℕ) : ℕ :=
  if n % 2 ≠ 0 then n + 1 else n

/-- Function `trapezoidal_rule(func, a, b, n)` from `Project_Report.md`:
`h = (b-a)/n`, sample points `x_i = a + i*h` (NumPy `linspace(a, b, n+1)`),
result `(h/2) * (y[0] + 2*sum(y[1:-1]) + y[-1])`. -/
def trapezoidal_rule (f : ℚ → ℚ) (a b : ℚ) (n : ℕ) : ℚ :=
  let h := (b - a) / n
  (h / 2) * (f a + 2 * (∑ i in Finset.Ico 1 n, f (a + i * h)) + f b)

/-- Function `midpoint_rule(func, a, b, n)` from `Project_Report.md`:
`h = (b-a)/n`, midpoints `a + (i + 0.5)*h` for `i in range(n)`,
result `h * sum(y)`. -/
def midpoint_rule (f : ℚ → ℚ) (a b : ℚ) (n : ℕ) : ℚ :=
  let h := (b - a) / n
  h * ∑ i in Finset.range n, f (a + ((i : ℚ) + 1/2) * h)

/-- Function `simpsons_rule(func, a, b, n)` from `Project_Report.md`: odd `n` is
coerced to `n + 1`; then `h = (b-a)/n`, sample points `x_i = a + i*h`, and
result `(h/3) * (y[0] + 4*sum(y[1:-1:2]) + 2*sum(y[2:-1:2]) + y[-1])`.
The odd-indexed slice `y[1:-1:2]` is the points `2k+1` for `k < n/2`, and
the even-indexed interior slice `y[2:-1:2]` is the points `2k+2` for
`k < n/2 - 1`. -/
def simpsons_rule (f : ℚ → ℚ) (a b : ℚ) (n : ℕ) : ℚ :=
  let m := evenCoerce n
  let h := (b - a) / m
  (h / 3) * (f a + 4 * (∑ k in Finset.range (m / 2), f (a + (2 * (k : ℚ) + 1) * h))
    + 2 * (∑ k in Finset.range (m / 2 - 1), f (a + (2 * (k : ℚ) + 2) * h)) + f b)

/-- Modelled from the spec: the per-method dispatch `compute_integral`
called by `analyze_convergence` is not reproduced in the report; the spec
describes it as a single exhaustive match over the closed method enumeration
that forwards to the three rules. -/
def compute_integral (f : ℚ → ℚ) (a b : ℚ) (n : ℕ) : Method → ℚ
  | .trapezoidal => trapezoidal_rule f a b n
  | .midpoint => midpoint_rule f a b n
  | .simpson => simpsons_rule f a b n

end NumInt

namespace NumInt

/-- Gauss sum over the interior indices, cast into `ℚ`:
`∑ i in Ico 1 n, i = n * (n - 1) / 2`. -/
theorem sum_Ico_cast (n : ℕ) :
    (∑ i in Finset.Ico 1 n, (i : ℚ)) = (n : ℚ) * ((n : ℚ) - 1) / 2 := by
  induction n with
  | zero => simp
  | succ m ih =>
    rcases Nat.eq_zero_or_pos m with hm | hm
    · subst hm; simp
    · rw [Finset.sum_Ico_succ_top (by omega)]
      rw [ih]
      push_cast
      ring

/-- The trapezoidal rule is exact on every polynomial of degree at most one:
for `f x = c*x + d` and any `n ≥ 1` it returns the true integral
`c*(b^2 - a^2)/2 + d*(b - a)`. -/
theorem trapezoidal_exact_linear (c d a b : ℚ) (n : ℕ) (hn : 1 ≤ n) :
    trapezoidal_rule (fun x => c * x + d) a b n
      = c * (b ^ 2 - a ^ 2) / 2 + d * (b - a) := by
  have hn0 : (n : ℚ) ≠ 0 := Nat.cast_ne_zero.mpr (by omega)
  unfold trapezoidal_rule
  simp only
  have hsum :
      (∑ i in Finset.Ico 1 n, (c * (a + (i : ℚ) * ((b - a) / n)) + d))
        = c * (n - 1) * a + c * ((b - a) / n) * ((n : ℚ) * ((n : ℚ) - 1) / 2)
          + d * ((n : ℚ) - 1) := by
    have hcard : ((n - 1 : ℕ) : ℚ) = (n : ℚ) - 1 := by
      push_cast [Nat.cast_sub hn]
      ring
    rw [Finset.sum_add_distrib, Finset.sum_const, Nat.card_Ico, nsmul_eq_mul, hcard]
    have h1 : (∑ i in Finset.Ico 1 n, (c * (a + (i : ℚ) * ((b - a) / n))))
        = c * ((n : ℚ) - 1) * a + c * ((b - a) / n) * (∑ i in Finset.Ico 1 n, (i : ℚ)) := by
      rw [← Finset.mul_sum]
      rw [Finset.sum_add_distrib, Finset.sum_const, Nat.card_Ico, nsmul_eq_mul, hcard]
      rw [← Finset.sum_mul]
      ring
    rw [h1, sum_Ico_cast]
    ring
  rw [hsum]
  field_simp
  ring

/-- Witness for C5 at `f = 2x + 1`, `[a,b] = [0,2]`, `n = 1`: the rule
returns exactly `6`. -/
theorem trapezoidal_exact_linear_witness :
    1 ≤ 1 ∧ trapezoidal_rule (fun x => 2 * x + 1) 0 2 1 = 6 :=
  ⟨le_refl 1, by
    have h := trapezoidal_exact_linear 2 1 0 2 1 (le_refl 1)
    rw [h]
    norm_num⟩

/-- Reindexing the interior trapezoidal nodes by the reflection `i ↦ n - i`. -/
theorem sum_Ico_reverse (f : ℚ → ℚ) (a h : ℚ) (n : ℕ) :
    (∑ i in Finset.Ico 1 n, f (a + ((n : ℚ) - i) * h))
      = ∑ i in Finset.Ico 1 n, f (a + i * h) := by
  refine Finset.sum_nbij' (fun k => n - k) (fun k => n - k) ?_ ?_ ?_ ?_ ?_
  · intro x hx
    simp only [Finset.mem_Ico] at hx ⊢
    omega
  · intro x hx
    simp only [Finset.mem_Ico] at hx ⊢
    omega
  · intro x hx
    simp only [Finset.mem_Ico] at hx
    show n - (n - x) = x
    omega
  · intro x hx
    simp only [Finset.mem_Ico] at hx
    show n - (n - x) = x
    omega
  · intro x hx
    simp only [Finset.mem_Ico] at hx
    have hc : ((n - x : ℕ) : ℚ) = (n : ℚ) - x := by
      push_cast [Nat.cast_sub (by omega : x ≤ n)]
      ring
    rw [hc]

/-- Reindexing the midpoint nodes by the reflection `i ↦ n - 1 - i`. -/
theorem sum_range_half_reverse (f : ℚ → ℚ) (a h : ℚ) (n : ℕ) :
    (∑ i in Finset.range n, f (a + ((n : ℚ) - i - 1/2) * h))
      = ∑ i in Finset.range n, f (a + ((i : ℚ) + 1/2) * h) := by
  rw [← Finset.sum_range_reflect (fun i => f (a + ((i : ℚ) + 1/2) * h)) n]
  apply Finset.sum_congr rfl
  intro i hi
  have hin : i < n := Finset.mem_range.mp hi
  have hc : ((n - 1 - i : ℕ) : ℚ) = (n : ℚ) - 1 - i := by
    push_cast [Nat.cast_sub (by omega : 1 ≤ n), Nat.cast_sub (by omega : i ≤ n - 1)]
    ring
  rw [hc]
  congr 1
  ring

/-- Reindexing the odd-indexed Simpson nodes by the reflection `k ↦ M - 1 - k`. -/
theorem simpson_odd_reverse (f : ℚ → ℚ) (a h : ℚ) (M : ℕ) :
    (∑ k in Finset.range M, f (a + (2 * ((M : ℚ) - k) - 1) * h))
      = ∑ k in Finset.range M, f (a + (2 * (k : ℚ) + 1) * h) := by
  rw [← Finset.sum_range_reflect (fun k => f (a + (2 * (k : ℚ) + 1) * h)) M]
  apply Finset.sum_congr rfl
  intro k hk
  have hkM : k < M := Finset.mem_range.mp hk
  have hc : ((M - 1 - k : ℕ) : ℚ) = (M : ℚ) - 1 - k := by
    push_cast [Nat.cast_sub (by omega : 1 ≤ M), Nat.cast_sub (by omega : k ≤ M - 1)]
    ring
  rw [hc]
  congr 1
  ring

/-- Reindexing the even-indexed interior Simpson nodes by the reflection
`k ↦ (M - 1) - 1 - k`. -/
theorem simpson_even_reverse (f : ℚ → ℚ) (a h : ℚ) (M : ℕ) :
    (∑ k in Finset.range (M - 1), f (a + (2 * ((M : ℚ) - k) - 2) * h))
      = ∑ k in Finset.range (M - 1), f (a + (2 * (k : ℚ) + 2) * h) := by
  rw [← Finset.sum_range_reflect (fun k => f (a + (2 * (k : ℚ) + 2) * h)) (M - 1)]
  apply Finset.sum_congr rfl
  intro k hk
  have hkM : k < M - 1 := Finset.mem_range.mp hk
  have hc : ((M - 1 - 1 - k : ℕ) : ℚ) = (M : ℚ) - 2 - k := by
    push_cast [Nat.cast_sub (by omega : 1 ≤ M), Nat.cast_sub (by omega : 1 ≤ M - 1),
      Nat.cast_sub (by omega : k ≤ M - 1 - 1)]
    ring
  rw [hc]
  congr 1
  ring

/-- Swapping the bounds negates the trapezoidal approximation. -/
theorem trapezoidal_rule_reverse (f : ℚ → ℚ) (a b : ℚ) (n : ℕ) (hn : 1 ≤ n) :
    trapezoidal_rule f b a n = - trapezoidal_rule f a b n := by
  have hn0 : (n : ℚ) ≠ 0 := Nat.cast_ne_zero.mpr (by omega)
  unfold trapezoidal_rule
  simp only
  have key : ∀ i : ℕ, b + (i : ℚ) * ((a - b) / n) = a + ((n : ℚ) - i) * ((b - a) / n) := by
    intro i
    field_simp
    ring
  rw [Finset.sum_congr rfl (fun i _ => by rw [key i])]
  rw [sum_Ico_reverse f a ((b - a) / n) n]
  ring

/-- Swapping the bounds negates the midpoint approximation. -/
theorem midpoint_rule_reverse (f : ℚ → ℚ) (a b : ℚ) (n : ℕ) (hn : 1 ≤ n) :
    midpoint_rule f b a n = - midpoint_rule f a b n := by
  have hn0 : (n : ℚ) ≠ 0 := Nat.cast_ne_zero.mpr (by omega)
  unfold midpoint_rule
  simp only
  have key : ∀ i : ℕ,
      b + ((i : ℚ) + 1/2) * ((a - b) / n) = a + ((n : ℚ) - i - 1/2) * ((b - a) / n) := by
    intro i
    field_simp
    ring
  rw [Finset.sum_congr rfl (fun i _ => by rw [key i])]
  rw [sum_range_half_reverse f a ((b - a) / n) n]
  ring

/-- Swapping the bounds negates the Simpson approximation (the even-coerced
count depends only on `n`, so both directions use the same partition). -/
theorem simpsons_rule_reverse (f : ℚ → ℚ) (a b : ℚ) (n : ℕ) (hn : 1 ≤ n) :
    simpsons_rule f b a n = - simpsons_rule f a b n := by
  have hme : evenCoerce n = 2 * (evenCoerce n / 2) := by
    unfold evenCoerce
    split <;> omega
  have hm1 : 1 ≤ evenCoerce n := by
    unfold evenCoerce
    split <;> omega
  unfold simpsons_rule
  simp only
  have hM1 : 1 ≤ evenCoerce n / 2 := by omega
  have hM0 : ((evenCoerce n / 2 : ℕ) : ℚ) ≠ 0 := Nat.cast_ne_zero.mpr (by omega)
  have hM : ((evenCoerce n : ℕ) : ℚ) = 2 * ((evenCoerce n / 2 : ℕ) : ℚ) := by
    exact_mod_cast congrArg (Nat.cast : ℕ → ℚ) hme
  have key1 : ∀ k : ℕ,
      b + (2 * (k : ℚ) + 1) * ((a - b) / (evenCoerce n : ℚ))
        = a + (2 * (((evenCoerce n / 2 : ℕ) : ℚ) - k) - 1) * ((b - a) / (evenCoerce n : ℚ)) := by
    intro k
    rw [hM]
    field_simp
    ring
  have key2 : ∀ k : ℕ,
      b + (2 * (k : ℚ) + 2) * ((a - b) / (evenCoerce n : ℚ))
        = a + (2 * (((evenCoerce n / 2 : ℕ) : ℚ) - k) - 2) * ((b - a) / (evenCoerce n : ℚ)) := by
    intro k
    rw [hM]
    field_simp
    ring
  have hodd :
      (∑ k in Finset.range (evenCoerce n / 2),
          f (b + (2 * (k : ℚ) + 1) * ((a - b) / (evenCoerce n : ℚ))))
        = ∑ k in Finset.range (evenCoerce n / 2),
            f (a + (2 * (k : ℚ) + 1) * ((b - a) / (evenCoerce n : ℚ))) := by
    rw [Finset.sum_congr rfl (fun k _ => by rw [key1 k])]
    exact simpson_odd_reverse f a ((b - a) / (evenCoerce n : ℚ)) (evenCoerce n / 2)
  have heven :
      (∑ k in Finset.range (evenCoerce n / 2 - 1),
          f (b + (2 * (k : ℚ) + 2) * ((a - b) / (evenCoerce n : ℚ))))
        = ∑ k in Finset.range (evenCoerce n / 2 - 1),
            f (a + (2 * (k : ℚ) + 2) * ((b - a) / (evenCoerce n : ℚ))) := by
    rw [Finset.sum_congr rfl (fun k _ => by rw [key2 k])]
    exact simpson_even_reverse f a ((b - a) / (evenCoerce n : ℚ)) (evenCoerce n / 2)
  rw [hodd, heven]
  ring

/-- C6: for each of the three quadrature rules and every callable `f`,
bounds `a, b`, and `n ≥ 1`, swapping the bounds negates the result. -/
theorem reverse_bounds_negates (m : Method) (f : ℚ → ℚ) (a b : ℚ) (n : ℕ)
    (hn : 1 ≤ n) :
    compute_integral f b a n m = - compute_integral f a b n m := by
  cases m with
  | trapezoidal => exact trapezoidal_rule_reverse f a b n hn
  | midpoint => exact midpoint_rule_reverse f a b n hn
  | simpson => exact simpsons_rule_reverse f a b n hn

/-- Witness for C6: reversing the bounds of `[0, 1]` for `f = id`,
trapezoidal, `n = 1`. -/
theorem reverse_bounds_negates_witness :
    1 ≤ 1 ∧ compute_integral (fun x => x) 1 0 1 Method.trapezoidal
      = - compute_integral (fun x => x) 0 1 1 Method.trapezoidal :=
  ⟨le_refl 1, reverse_bounds_negates Method.trapezoidal (fun x => x) 0 1 1 (le_refl 1)⟩

/-- One row of the convergence table produced by `analyze_convergence`. -/
structure ErrorRecord where
  n : ℕ
  h : ℚ
  approx : ℚ
  abs_error : ℚ
  rel_error : ℚ
  eoc : Option ℝ

/-- Modelled from the spec: `calculate_eoc` is called by `analyze_convergence`
but its body is not reproduced in the report.  The spec gives
`eoc = ln(E1/E2) / ln(n2/n1)`, undefined (null) when either error is
exactly zero. -/
noncomputable def calculate_eoc (E1 E2 : ℚ) (n1 n2 : ℕ) : Option ℝ :=
  if E1 = 0 ∨ E2 = 0 then none
  else some (Real.log ((E1 : ℝ) / (E2 : ℝ)) / Real.log ((n2 : ℝ) / (n1 : ℝ)))

/-- Modelled from the spec: `calculate_errors` returns the absolute error
`|approx - exact|` and the relative error `|approx - exact| / |exact|`
(report §6.2); its body is not reproduced in the report. -/
def calculate_errors (approx exact_val : ℚ) : ℚ × ℚ :=
  (|approx - exact_val|, |approx - exact_val| / |exact_val|)

/-- The inner loop of `analyze_convergence` for one method: iterate the
sorted `n_values`, threading `prev_error, prev_n`, and emit one record per
`n` with fields `n`, `h = (b-a)/n`, `approx`, `abs_error`, `rel_error`,
`eoc` (the latter `None` on the first iteration). -/
noncomputable def analyzeLoop (exact_val : ℚ) (f : ℚ → ℚ) (a b : ℚ) (method : Method) :
    List ℕ → Option (ℚ × ℕ) → List ErrorRecord
  | [], _ => []
  | n :: rest, prev =>
      let approx := compute_integral f a b n method
      let errs := calculate_errors approx exact_val
      let eoc : Option ℝ := match prev with
        | none => none
        | some (pe, pn) => calculate_eoc pe errs.1 pn n
      { n := n, h := (b - a) / n, approx := approx,
        abs_error := errs.1, rel_error := errs.2, eoc := eoc }
        :: analyzeLoop exact_val f a b method rest (some (errs.1, n))

/-- Python `sorted` applied to the `n_values` list (ascending stable sort;
for natural-number keys any correct sort produces the same list). -/
def pySorted (l : List ℕ) : List ℕ :=
  List.insertionSort (· ≤ ·) l

/-- The per-method record list `results[method]` of `analyze_convergence`:
the loop over `sorted(n_values)` starting from `prev_error = prev_n = None`. -/
noncomputable def methodRecords (exact_val : ℚ) (f : ℚ → ℚ) (a b : ℚ)
    (method : Method) (n_values : List ℕ) : List ErrorRecord :=
  analyzeLoop exact_val f a b method (pySorted n_values) none

/-- Modelled from the spec: `final_errors`, the mapping from each requested
method to its absolute error at the final (largest) `n`, in the input order
of `methods`; its construction is elided in the report, which only shows
`winner = min(final_errors, key=final_errors.get)`. -/
noncomputable def final_errors (exact_val : ℚ) (f : ℚ → ℚ) (a b : ℚ)
    (methods : List Method) (n_values : List ℕ) : List (Method × ℚ) :=
  methods.map (fun m =>
    (m, (((methodRecords exact_val f a b m n_values).getLast?).map
      (fun r => r.abs_error)).getD 0))

/-- The accumulator step of Python `min` with a key: keep the current best
unless a strictly smaller key appears (ties keep the earlier entry). -/
def minStep (best kv2 : Method × ℚ) : Method × ℚ :=
  if kv2.2 < best.2 then kv2 else best

/-- Python `min(final_errors, key=final_errors.get)` over the
insertion-ordered method/error pairs: the first entry attaining the minimal
value. -/
def pyMinByVal (l : List (Method × ℚ)) : Option Method :=
  match l with
  | [] => none
  | kv :: rest => some ((rest.foldl minStep kv).1)

/-- The aggregate result of `analyze_convergence`. -/
structure AnalysisResult where
  exact_value : ℚ
  results : List (Method × List ErrorRecord)
  winner : Option Method

/-- Function `analyze_convergence(func, a, b, methods, n_values)` from the report.
The reference integrator (`exact_integral`, SciPy `quad`) is an external
collaborator and is passed in as a parameter. -/
noncomputable def analyze_convergence (exact_integral : (ℚ → ℚ) → ℚ → ℚ → ℚ × ℚ)
    (f : ℚ → ℚ) (a b : ℚ) (methods : List Method) (n_values : List ℕ) : AnalysisResult :=
  let ev := (exact_integral f a b).1
  { exact_value := ev
    results := methods.map (fun m => (m, methodRecords ev f a b m n_values))
    winner := pyMinByVal (final_errors ev f a b methods n_values) }

end NumInt

namespace NumInt

/-- Binary operators admitted by `SafeExpressionParser.ALLOWED_OPERATORS`
(`ast.Add`, `ast.Sub`, `ast.Mult`, `ast.Div`, `ast.Pow`). -/
inductive PyBinOp
  | add
  | sub
  | mul
  | div
  | pow
deriving DecidableEq, Repr

/-- Unary operators admitted by `ALLOWED_OPERATORS` (`ast.USub`, `ast.UAdd`). -/
inductive PyUnOp
  | neg
  | pos
deriving DecidableEq, Repr

/-- Modelled from the spec: the abstract syntax of parsed Python expressions
seen by `SafeExpressionParser` (the report shows only the whitelists; the
recursive walk over `ast` nodes is elided).  Node kinds follow Python's
`ast` module: numeric and non-numeric literals (strings, lists), names,
unary and binary operations, calls of a named function (all whitelisted
functions are unary), attribute access and subscripting. -/
inductive PyExpr
  | num (q : ℚ)
  | strLit (s : String)
  | listLit
  | name (id : String)
  | unaryop (op : PyUnOp) (e : PyExpr)
  | binop (op : PyBinOp) (l r : PyExpr)
  | call (fn : String) (arg : PyExpr)
  | attrAccess (v : PyExpr) (attr : String)
  | subscript (v : PyExpr) (idx : PyExpr)
deriving DecidableEq, Repr

/-- Modelled from the spec: a parsed source is either a single expression or
a statement such as `import os`, which parsing in expression mode refuses. -/
inductive PySource
  | expr (e : PyExpr)
  | stmt (s : String)
deriving DecidableEq, Repr

/-- The whitelisted function names of `SafeExpressionParser.ALLOWED_NAMES`. -/
def allowedFuncs : List String := ["sin", "cos", "tan", "exp", "log", "sqrt", "abs"]

/-- The whitelisted variable and constants of `ALLOWED_NAMES`. -/
def allowedVars : List String := ["x", "pi", "e"]

/-- Modelled from the spec: the recursive whitelist check over the parsed
tree — only numeric literals, `x`/`pi`/`e`, unary and binary operators, and
calls of whitelisted functions are accepted; string or list literals, other
identifiers, non-whitelisted calls, attribute access and subscripting are
rejected. -/
def validate : PyExpr → Bool
  | .num _ => true
  | .strLit _ => false
  | .listLit => false
  | .name id => allowedVars.contains id
  | .unaryop _ e => validate e
  | .binop _ l r => validate l && validate r
  | .call fn arg => allowedFuncs.contains fn && validate arg
  | .attrAccess _ _ => false
  | .subscript _ _ => false

/-- Interpretation of a validated tree over the reals, matching the NumPy
bindings of the whitelist (`np.sin`, …, `np.pi`, `np.e`); unreachable
rejected nodes evaluate to `0`. -/
noncomputable def evalExpr : PyExpr → ℝ → ℝ
  | .num q, _ => (q : ℝ)
  | .strLit _, _ => 0
  | .listLit, _ => 0
  | .name id, x =>
      if id = "x" then x
      else if id = "pi" then Real.pi
      else if id = "e" then Real.exp 1
      else 0
  | .unaryop .neg e, x => -(evalExpr e x)
  | .unaryop .pos e, x => evalExpr e x
  | .binop .add l r, x => evalExpr l x + evalExpr r x
  | .binop .sub l r, x => evalExpr l x - evalExpr r x
  | .binop .mul l r, x => evalExpr l x * evalExpr r x
  | .binop .div l r, x => evalExpr l x / evalExpr r x
  | .binop .pow l r, x => Real.rpow (evalExpr l x) (evalExpr r x)
  | .call fn arg, x =>
      let v := evalExpr arg x
      if fn = "sin" then Real.sin v
      else if fn = "cos" then Real.cos v
      else if fn = "tan" then Real.tan v
      else if fn = "exp" then Real.exp v
      else if fn = "log" then Real.log v
      else if fn = "sqrt" then Real.sqrt v
      else if fn = "abs" then |v|
      else 0
  | .attrAccess _ _, _ => 0
  | .subscript _ _, _ => 0

/-- The error raised on malformed or forbidden input. -/
inductive EvalError
  | invalidExpression (msg : String)
deriving DecidableEq, Repr

/-- Function `evaluate_expression`: statements are refused at parse time; expression
trees are validated against the whitelist before any evaluation, and only a
fully validated tree is interpreted. -/
noncomputable def evaluate_expression : PySource → Except EvalError (ℝ → ℝ)
  | .stmt s => .error (.invalidExpression s)
  | .expr e =>
      if validate e then .ok (evalExpr e)
      else .error (.invalidExpression "forbidden construct")

/-- A forbidden construct occurs somewhere in the tree: a non-numeric
literal, an identifier outside `x`/`pi`/`e`, a call to a function outside
the whitelist, attribute access, or subscripting. -/
def hasForbidden : PyExpr → Bool
  | .num _ => false
  | .strLit _ => true
  | .listLit => true
  | .name id => !(allowedVars.contains id)
  | .unaryop _ e => hasForbidden e
  | .binop _ l r => hasForbidden l || hasForbidden r
  | .call fn arg => !(allowedFuncs.contains fn) || hasForbidden arg
  | .attrAccess _ _ => true
  | .subscript _ _ => true

/-- A source contains a forbidden construct when it is a statement or its
expression tree has one. -/
def containsForbidden : PySource → Bool
  | .stmt _ => true
  | .expr e => hasForbidden e

/-- Whether the evaluator answered with `InvalidExpressionError`. -/
def isRejected : Except EvalError (ℝ → ℝ) → Bool
  | .error (.invalidExpression _) => true
  | .ok _ => false

/-- A tree containing a forbidden construct never validates. -/
theorem validate_eq_false_of_hasForbidden :
    ∀ e : PyExpr, hasForbidden e = true → validate e = false := by
  intro e
  induction e with
  | num q => intro h; simp [hasForbidden] at h
  | strLit s => intro _; rfl
  | listLit => intro _; rfl
  | name id =>
    intro h
    simp only [hasForbidden, Bool.not_eq_eq_eq_not, Bool.not_true] at h
    simpa [validate] using h
  | unaryop op e ih =>
    intro h
    exact ih (by simpa [hasForbidden] using h)
  | binop op l r ihl ihr =>
    intro h
    have h2 : hasForbidden l = true ∨ hasForbidden r = true := by
      simpa [hasForbidden] using h
    rcases h2 with h1 | h1
    · simp [validate, ihl h1]
    · simp [validate, ihr h1]
  | call fn arg ih =>
    intro h
    have h2 : ¬ fn ∈ allowedFuncs ∨ hasForbidden arg = true := by
      simpa [hasForbidden] using h
    rcases h2 with h1 | h1
    · simp [validate, h1]
    · simp [validate, ih h1]
  | attrAccess v attr ihv => intro _; rfl
  | subscript v idx ihv ihi => intro _; rfl

/-- C2: every input containing an identifier outside the whitelist, an
attribute access, a subscript, a statement, a non-numeric literal, or a call
to a non-whitelisted function is rejected with `InvalidExpressionError`
before any evaluation; in particular the statement `import os` is rejected. -/
theorem evaluate_expression_rejects :
    (∀ src, containsForbidden src = true → isRejected (evaluate_expression src) = true)
    ∧ evaluate_expression (.stmt "import os")
        = .error (.invalidExpression "import os") := by
  constructor
  · intro src h
    cases src with
    | stmt s => rfl
    | expr e =>
      have hv : validate e = false :=
        validate_eq_false_of_hasForbidden e (by simpa [containsForbidden] using h)
      simp [evaluate_expression, hv, isRejected]
  · rfl

/-- Witness for C2 at the concrete forbidden input `x.foo` (attribute
access). -/
theorem evaluate_expression_rejects_witness :
    containsForbidden (.expr (.attrAccess (.name "x") "foo")) = true
    ∧ isRejected (evaluate_expression (.expr (.attrAccess (.name "x") "foo"))) = true :=
  ⟨by decide, evaluate_expression_rejects.1 (.expr (.attrAccess (.name "x") "foo")) (by decide)⟩

/-- Geometric primitives emitted for the visualization canvas. -/
inductive Shape
  | trapezoid (x0 x1 y0 y1 : ℚ)
  | rectangle (x0 x1 y : ℚ)
  | parabola (x0 x1 x2 y0 y1 y2 : ℚ)
deriving DecidableEq, Repr

/-- The payload returned by `get_visualization_data`. -/
structure VisualizationData where
  curve : List (ℚ × ℚ)
  shapes : List Shape

/-- Python `range(0, n, 2)`: the starting indices of subinterval pairs. -/
def pyRangeStep2 (n : ℕ) : List ℕ :=
  (List.range ((n + 1) / 2)).map (fun k => 2 * k)

/-- Function `get_visualization_data(func, a, b, n, method)` from the report: one
trapezoid or rectangle per subinterval (`for i in range(n)`), one parabola
per pair of subintervals (`for i in range(0, n, 2)`).  The elided node
layout (`x_points`) follows the rules of §4.3 with `x_i = a + i*h`, and the
curve is a dense fixed-resolution sampling independent of `n` (modelled from
the spec). -/
def get_visualization_data (f : ℚ → ℚ) (a b : ℚ) (n : ℕ) (method : Method) :
    VisualizationData :=
  let h := (b - a) / n
  let shapes : List Shape :=
    match method with
    | .trapezoidal =>
        (List.range n).map (fun (i : ℕ) =>
          .trapezoid (a + (i : ℚ) * h) (a + ((i : ℚ) + 1) * h)
            (f (a + (i : ℚ) * h)) (f (a + ((i : ℚ) + 1) * h)))
    | .midpoint =>
        (List.range n).map (fun (i : ℕ) =>
          .rectangle (a + (i : ℚ) * h) (a + ((i : ℚ) + 1) * h)
            (f ((a + (i : ℚ) * h + (a + ((i : ℚ) + 1) * h)) / 2)))
    | .simpson =>
        (pyRangeStep2 n).map (fun (i : ℕ) =>
          .parabola (a + (i : ℚ) * h) (a + ((i : ℚ) + 1) * h) (a + ((i : ℚ) + 2) * h)
            (f (a + (i : ℚ) * h)) (f (a + ((i : ℚ) + 1) * h)) (f (a + ((i : ℚ) + 2) * h)))
  { curve := (List.range 201).map
      (fun (i : ℕ) => (a + (i : ℚ) * ((b - a) / 200), f (a + (i : ℚ) * ((b - a) / 200))))
    shapes := shapes }

/-- C8: the visualization generator produces exactly one shape per
subinterval for the trapezoidal and midpoint methods (count `n`) and exactly
one parabola per pair of subintervals for Simpson (count `n/2` after
even-coercion of `n`). -/
theorem visualization_shape_count (f : ℚ → ℚ) (a b : ℚ) (n : ℕ) :
    (get_visualization_data f a b n .trapezoidal).shapes.length = n
    ∧ (get_visualization_data f a b n .midpoint).shapes.length = n
    ∧ (get_visualization_data f a b n .simpson).shapes.length = evenCoerce n / 2 := by
  refine ⟨?_, ?_, ?_⟩
  · have hs : (get_visualization_data f a b n Method.trapezoidal).shapes
        = (List.range n).map (fun (i : ℕ) =>
            Shape.trapezoid (a + (i : ℚ) * ((b - a) / n)) (a + ((i : ℚ) + 1) * ((b - a) / n))
              (f (a + (i : ℚ) * ((b - a) / n))) (f (a + ((i : ℚ) + 1) * ((b - a) / n)))) := rfl
    rw [hs, List.length_map, List.length_range]
  · have hs : (get_visualization_data f a b n Method.midpoint).shapes
        = (List.range n).map (fun (i : ℕ) =>
            Shape.rectangle (a + (i : ℚ) * ((b - a) / n)) (a + ((i : ℚ) + 1) * ((b - a) / n))
              (f ((a + (i : ℚ) * ((b - a) / n) + (a + ((i : ℚ) + 1) * ((b - a) / n))) / 2))) := rfl
    rw [hs, List.length_map, List.length_range]
  · have hs : (get_visualization_data f a b n Method.simpson).shapes
        = (pyRangeStep2 n).map (fun (i : ℕ) =>
            Shape.parabola (a + (i : ℚ) * ((b - a) / n)) (a + ((i : ℚ) + 1) * ((b - a) / n))
              (a + ((i : ℚ) + 2) * ((b - a) / n)) (f (a + (i : ℚ) * ((b - a) / n)))
              (f (a + ((i : ℚ) + 1) * ((b - a) / n)))
              (f (a + ((i : ℚ) + 2) * ((b - a) / n)))) := rfl
    rw [hs, List.length_map]
    unfold pyRangeStep2
    rw [List.length_map, List.length_range]
    unfold evenCoerce
    split <;> omega

/-- Modelled from the spec: JavaScript `parseInt` applied to a text-field
value — skip leading whitespace, accept an optional sign, read leading
decimal digits, and produce `NaN` (here `none`) when no digit is found.
(The hexadecimal prefix form is not modelled; the handlers below guard only
on the parsed result.) -/
def jsDigits (cs : List Char) : Option ℕ :=
  let ds := cs.takeWhile (fun c => c.isDigit)
  if ds.isEmpty then none
  else some (ds.foldl (fun acc c => 10 * acc + (c.toNat - 48)) 0)

/-- See `jsDigits`: the sign and whitespace handling of `parseInt`. -/
def jsParseInt (s : String) : Option Int :=
  let cs := s.toList.dropWhile (fun c => c == ' ' || c == '\t' || c == '\n' || c == '\r')
  match cs with
  | '-' :: rest => (jsDigits rest).map (fun v => -(v : Int))
  | '+' :: rest => (jsDigits rest).map (fun v => (v : Int))
  | rest => (jsDigits rest).map (fun v => (v : Int))

/-- Handler `handleCustomNChange` from `MethodControls`: parse the typed value and
forward it through `onNChange` only when `!isNaN(num) && num >= 1 &&
num <= 1024`; returns the forwarded value, if any. -/
def handleCustomNChange (value : String) : Option Int :=
  match jsParseInt value with
  | none => none
  | some num => if 1 ≤ num ∧ num ≤ 1024 then some num else none

/-- Handler `handleCustomNBlur` from `MethodControls`: clamp the current text to
`[1, 1024]` (`NaN` and values below `1` become `1`, values above `1024`
become `1024`) and forward the result. -/
def handleCustomNBlur (customN : String) : Int :=
  let num0 : Int :=
    match jsParseInt customN with
    | none => 1
    | some m => if m < 1 then 1 else m
  if num0 > 1024 then 1024 else num0

/-- C9: for every user input, the interval-count control keeps the
propagated `n` within `[1, 1024]`: while typing, a value is forwarded only
if it parses with `1 ≤ n ≤ 1024`; on blur, any non-numeric or out-of-range
value is clamped into `[1, 1024]` before being forwarded. -/
theorem custom_n_bounded (s : String) :
    (∀ k, handleCustomNChange s = some k → 1 ≤ k ∧ k ≤ 1024)
    ∧ 1 ≤ handleCustomNBlur s ∧ handleCustomNBlur s ≤ 1024 := by
  constructor
  · intro k hk
    unfold handleCustomNChange at hk
    cases h : jsParseInt s with
    | none => rw [h] at hk; exact absurd hk (by simp)
    | some num =>
      rw [h] at hk
      simp only at hk
      split at hk
      · rename_i hr
        cases hk
        exact hr
      · exact absurd hk (by simp)
  · unfold handleCustomNBlur
    cases h : jsParseInt s with
    | none =>
      simp only
      split <;> omega
    | some m =>
      simp only
      by_cases hm : m < 1
      · rw [if_pos hm]
        split <;> omega
      · rw [if_neg hm]
        split <;> omega

/-- Witness for C9 at the concrete typed input `"42"`. -/
theorem custom_n_bounded_witness :
    handleCustomNChange "42" = some 42 ∧ (1 ≤ (42 : ℤ) ∧ (42 : ℤ) ≤ 1024) :=
  ⟨by decide, (custom_n_bounded "42").1 42 (by decide)⟩

/-- Handler `handleMethodToggle` from `App.jsx`: remove the method when present
(`prev.filter((m) => m !== method)`), otherwise append it
(`[...prev, method]`). -/
def handleMethodToggle (prev : List String) (method : String) : List String :=
  if method ∈ prev then prev.filter (fun m => m != method) else prev ++ [method]

/-- C10: toggling a method twice restores the membership of the original
list; a toggle removes the method exactly when present and appends it once
when absent; and toggling preserves freedom from duplicates, so no method
ever appears twice. -/
theorem toggle_involution (prev : List String) (method : String) :
    (∀ x, x ∈ handleMethodToggle (handleMethodToggle prev method) method ↔ x ∈ prev)
    ∧ (method ∈ prev →
        handleMethodToggle prev method = prev.filter (fun m => m != method))
    ∧ (method ∉ prev → handleMethodToggle prev method = prev ++ [method])
    ∧ (prev.Nodup → (handleMethodToggle prev method).Nodup) := by
  by_cases hm : method ∈ prev
  · have h1 : handleMethodToggle prev method = prev.filter (fun m => m != method) := by
      unfold handleMethodToggle
      rw [if_pos hm]
    have hnot : method ∉ prev.filter (fun m => m != method) := by
      simp [List.mem_filter]
    have h2 : handleMethodToggle (handleMethodToggle prev method) method
        = prev.filter (fun m => m != method) ++ [method] := by
      rw [h1]
      unfold handleMethodToggle
      rw [if_neg hnot]
    refine ⟨?_, fun _ => h1, fun hc => absurd hm hc, ?_⟩
    · intro x
      rw [h2]
      simp only [List.mem_append, List.mem_filter, List.mem_singleton]
      constructor
      · rintro (⟨hx, _⟩ | hx)
        · exact hx
        · exact hx ▸ hm
      · intro hx
        by_cases hxm : x = method
        · exact Or.inr hxm
        · exact Or.inl ⟨hx, by simpa using hxm⟩
    · intro hnd
      rw [h1]
      exact hnd.filter _
  · have h1 : handleMethodToggle prev method = prev ++ [method] := by
      unfold handleMethodToggle
      rw [if_neg hm]
    have hmem : method ∈ prev ++ [method] := by simp
    have h2 : handleMethodToggle (handleMethodToggle prev method) method
        = (prev ++ [method]).filter (fun m => m != method) := by
      rw [h1]
      unfold handleMethodToggle
      rw [if_pos hmem]
    refine ⟨?_, fun hc => absurd hc hm, fun _ => h1, ?_⟩
    · intro x
      rw [h2]
      simp only [List.filter_append, List.mem_append, List.mem_filter]
      constructor
      · rintro (⟨hx, _⟩ | hx)
        · exact hx
        · simp at hx
      · intro hx
        left
        refine ⟨hx, ?_⟩
        simp only [bne_iff_ne, ne_eq, decide_eq_true_eq]
        intro hcon
        exact hm (hcon ▸ hx)
    · intro hnd
      rw [h1]
      rw [List.nodup_append]
      exact ⟨hnd, List.nodup_singleton _, by simpa using hm⟩

/-- Witness for C10 at the concrete toggle of `"midpoint"` on
`["trapezoidal"]`. -/
theorem toggle_involution_witness :
    ("midpoint" ∉ (["trapezoidal"] : List String))
    ∧ handleMethodToggle ["trapezoidal"] "midpoint" = ["trapezoidal"] ++ ["midpoint"]
    ∧ (["trapezoidal"] : List String).Nodup
    ∧ (handleMethodToggle ["trapezoidal"] "midpoint").Nodup :=
  ⟨by decide, (toggle_involution ["trapezoidal"] "midpoint").2.2.1 (by decide),
    by decide, (toggle_involution ["trapezoidal"] "midpoint").2.2.2 (by decide)⟩

/-- C1 counterexample: requesting Simpson with `n = 5` on `[0, 1]` yields a
record reporting `n = 5` and `h = (1-0)/5 = 1/5` — not the coerced `n = 6`
and `h = 1/6` that the claim asserts is reported. -/
theorem simpson_reporting_counterexample :
    ((methodRecords (1/2) (fun x => x) 0 1 Method.simpson [5]).map
        (fun r => (r.n, r.h))) = [(5, 1/5)]
      ∧ (5 : ℕ) ≠ 6 ∧ ((1 : ℚ)/5) ≠ 1/6 := by
  refine ⟨?_, by decide, by norm_num⟩
  show [((5 : ℕ), (1 - 0) / ((5 : ℕ) : ℚ))] = [(5, 1/5)]
  norm_num

/-- C1 (amended): for every callable `f`, bounds `a, b`, and odd `n`,
Simpson's rule does compute internally with the coerced even count `n + 1`
(its approximation equals the one requested at `n + 1`, whose internal step
is `(b-a)/(n+1)`), but the analyzer's records report the caller's original
`n` and `h = (b-a)/n`, not the adjusted value. -/
theorem simpson_coerces_but_reports_original (f : ℚ → ℚ) (a b : ℚ) (n : ℕ)
    (exact_val : ℚ) (hodd : n % 2 = 1) :
    simpsons_rule f a b n = simpsons_rule f a b (n + 1)
      ∧ (methodRecords exact_val f a b Method.simpson [n]).map (fun r => (r.n, r.h))
          = [(n, (b - a) / n)] := by
  constructor
  · have h1 : evenCoerce n = evenCoerce (n + 1) := by
      unfold evenCoerce
      have hx : n % 2 ≠ 0 := by omega
      have hy : ¬((n + 1) % 2 ≠ 0) := by omega
      simp [hx, hy]
    unfold simpsons_rule
    rw [h1]
  · rfl

instance : Inhabited ErrorRecord :=
  ⟨{ n := 0, h := 0, approx := 0, abs_error := 0, rel_error := 0, eoc := none }⟩

/-- The per-method loop emits one record per element of its input list. -/
theorem analyzeLoop_length (e : ℚ) (f : ℚ → ℚ) (a b : ℚ) (m : Method) :
    ∀ (ns : List ℕ) (prev : Option (ℚ × ℕ)),
      (analyzeLoop e f a b m ns prev).length = ns.length
  | [], _ => rfl
  | _ :: rest, prev => by
    simp only [analyzeLoop, List.length_cons]
    rw [analyzeLoop_length e f a b m rest]

/-- With no predecessor state, the first emitted record has a null `eoc`. -/
theorem analyzeLoop_first_eoc (e : ℚ) (f : ℚ → ℚ) (a b : ℚ) (m : Method)
    (ns : List ℕ) :
    ((analyzeLoop e f a b m ns none).getD 0 default).eoc = none := by
  cases ns with
  | nil => rfl
  | cons n rest => rfl

/-- Each later record's `eoc` is `calculate_eoc` of the two consecutive
absolute errors and subdivision counts, regardless of the starting state. -/
theorem analyzeLoop_eoc_chain (e : ℚ) (f : ℚ → ℚ) (a b : ℚ) (m : Method) :
    ∀ (ns : List ℕ) (prev : Option (ℚ × ℕ)) (i : ℕ),
      i + 1 < ns.length →
      ((analyzeLoop e f a b m ns prev).getD (i + 1) default).eoc
        = calculate_eoc ((analyzeLoop e f a b m ns prev).getD i default).abs_error
            ((analyzeLoop e f a b m ns prev).getD (i + 1) default).abs_error
            ((analyzeLoop e f a b m ns prev).getD i default).n
            ((analyzeLoop e f a b m ns prev).getD (i + 1) default).n := by
  intro ns
  induction ns with
  | nil => intro prev i hi; simp at hi
  | cons n rest ih =>
    intro prev i hi
    cases i with
    | zero =>
      cases rest with
      | nil => simp at hi
      | cons n2 rest2 => rfl
    | succ j =>
      have hj : j + 1 < rest.length := by
        simpa [List.length_cons] using hi
      simpa [analyzeLoop, List.getD_cons_succ] using
        ih (some ((calculate_errors (compute_integral f a b n m) e).1, n)) j hj

/-- C3: in every per-method record list produced by the convergence
analyzer, the first record's `eoc` is null, and every later record's `eoc`
equals `ln(E1/E2) / ln(n2/n1)` computed from the consecutive absolute
errors `E1` (at `n1`) and `E2` (at `n2`), being null when either error is
exactly zero. -/
theorem eoc_structure (exact_val : ℚ) (f : ℚ → ℚ) (a b : ℚ) (method : Method)
    (n_values : List ℕ) :
    ((methodRecords exact_val f a b method n_values).getD 0 default).eoc = none
    ∧ ∀ i, i + 1 < (methodRecords exact_val f a b method n_values).length →
        ((methodRecords exact_val f a b method n_values).getD (i + 1) default).eoc
          = if ((methodRecords exact_val f a b method n_values).getD i default).abs_error = 0
              ∨ ((methodRecords exact_val f a b method n_values).getD (i + 1) default).abs_error
                  = 0
            then none
            else some
              (Real.log
                  ((((methodRecords exact_val f a b method n_values).getD i
                        default).abs_error : ℝ)
                    / (((methodRecords exact_val f a b method n_values).getD (i + 1)
                        default).abs_error : ℝ))
                / Real.log
                  ((((methodRecords exact_val f a b method n_values).getD (i + 1)
                        default).n : ℝ)
                    / (((methodRecords exact_val f a b method n_values).getD i
                        default).n : ℝ))) := by
  constructor
  · exact analyzeLoop_first_eoc exact_val f a b method (pySorted n_values)
  · intro i hi
    have hlen : i + 1 < (pySorted n_values).length := by
      rwa [methodRecords, analyzeLoop_length] at hi
    have := analyzeLoop_eoc_chain exact_val f a b method (pySorted n_values) none i hlen
    rw [methodRecords]
    rw [this]
    rfl

/-- Witness for C3 at the concrete analysis `f = id` on `[0, 2]`,
`exact = 2`, trapezoidal, `n_values = [1, 2]`. -/
theorem eoc_structure_witness :
    0 + 1 < (methodRecords 2 (fun x => x) 0 2 Method.trapezoidal [1, 2]).length
    ∧ ((methodRecords 2 (fun x => x) 0 2 Method.trapezoidal [1, 2]).getD (0 + 1)
          default).eoc
        = if ((methodRecords 2 (fun x => x) 0 2 Method.trapezoidal [1, 2]).getD 0
              default).abs_error = 0
            ∨ ((methodRecords 2 (fun x => x) 0 2 Method.trapezoidal [1, 2]).getD (0 + 1)
              default).abs_error = 0
          then none
          else some
            (Real.log
                ((((methodRecords 2 (fun x => x) 0 2 Method.trapezoidal [1, 2]).getD 0
                      default).abs_error : ℝ)
                  / (((methodRecords 2 (fun x => x) 0 2 Method.trapezoidal [1, 2]).getD
                      (0 + 1) default).abs_error : ℝ))
              / Real.log
                ((((methodRecords 2 (fun x => x) 0 2 Method.trapezoidal [1, 2]).getD
                      (0 + 1) default).n : ℝ)
                  / (((methodRecords 2 (fun x => x) 0 2 Method.trapezoidal [1, 2]).getD 0
                      default).n : ℝ))) :=
  ⟨by decide, (eoc_structure 2 (fun x => x) 0 2 Method.trapezoidal [1, 2]).2 0 (by decide)⟩

/-- The value delivered by `getLast?` is a member of the list. -/
theorem mem_of_getLast?_eq {α : Type} (l : List α) (x : α) (h : l.getLast? = some x) :
    x ∈ l := by
  cases l with
  | nil => simp at h
  | cons y ys =>
    rw [List.getLast?_eq_getLast (y :: ys) (by simp)] at h
    have hm := List.getLast_mem (l := y :: ys) (by simp)
    rwa [Option.some_inj.mp h] at hm

/-- In a `≤`-sorted list every element is bounded by the last one. -/
theorem sorted_le_getLast :
    ∀ (l : List ℕ), l.Sorted (· ≤ ·) → ∀ x ∈ l, ∀ y, l.getLast? = some y → x ≤ y := by
  intro l
  induction l with
  | nil => intro _ x hx; simp at hx
  | cons a rest ih =>
    intro hs x hx y hy
    rw [List.sorted_cons] at hs
    cases rest with
    | nil =>
      simp at hx hy
      omega
    | cons b rs =>
      rw [List.getLast?_cons_cons] at hy
      rcases List.mem_cons.mp hx with hxa | hxr
      · have hymem : y ∈ b :: rs := mem_of_getLast?_eq _ _ hy
        exact hxa ▸ (hs.1 y hymem)
      · exact ih hs.2 x hxr y hy

/-- Sorting `n_values` produces a list ending with the largest requested `n`. -/
theorem pySorted_getLast (l : List ℕ) (hl : l ≠ []) :
    ∃ nmax, (pySorted l).getLast? = some nmax ∧ nmax ∈ l ∧ ∀ y ∈ l, y ≤ nmax := by
  have hperm : List.Perm (pySorted l) l := List.perm_insertionSort (· ≤ ·) l
  have hne : pySorted l ≠ [] := by
    intro hcon
    exact hl (List.Perm.nil_eq (hcon ▸ hperm)).symm
  cases hlast : (pySorted l).getLast? with
  | none => exact absurd (List.getLast?_eq_none_iff.mp hlast) hne
  | some nmax =>
    refine ⟨nmax, rfl, ?_, ?_⟩
    · exact hperm.mem_iff.mp (mem_of_getLast?_eq _ _ hlast)
    · intro y hy
      exact sorted_le_getLast (pySorted l) (List.sorted_insertionSort (· ≤ ·) l) y
        (hperm.mem_iff.mpr hy) nmax hlast

/-- The absolute errors recorded by the loop are exactly
`|compute_integral(n) - exact|`, in the order of the input list. -/
theorem analyzeLoop_map_abs (e : ℚ) (f : ℚ → ℚ) (a b : ℚ) (m : Method) :
    ∀ (ns : List ℕ) (prev : Option (ℚ × ℕ)),
      (analyzeLoop e f a b m ns prev).map (fun r => r.abs_error)
        = ns.map (fun n => |compute_integral f a b n m - e|)
  | [], _ => rfl
  | n :: rest, prev => by
    simp only [analyzeLoop, List.map_cons, calculate_errors]
    rw [analyzeLoop_map_abs e f a b m rest]

/-- Map `final_errors` assigns to each method its absolute error at the largest
requested `n` (the last entry of the sorted `n_values`). -/
theorem final_errors_eq (e : ℚ) (f : ℚ → ℚ) (a b : ℚ) (methods : List Method)
    (n_values : List ℕ) (nmax : ℕ)
    (hlast : (pySorted n_values).getLast? = some nmax) :
    final_errors e f a b methods n_values
      = methods.map (fun m => (m, |compute_integral f a b nmax m - e|)) := by
  unfold final_errors
  apply List.map_congr_left
  intro m _
  have h1 : (methodRecords e f a b m n_values).getLast?.map (fun r => r.abs_error)
      = some |compute_integral f a b nmax m - e| := by
    rw [← List.getLast?_map]
    rw [methodRecords, analyzeLoop_map_abs]
    rw [List.getLast?_map, hlast]
    rfl
  rw [h1]
  rfl

/-- The left fold of `minStep` returns either the initial pair, when no list
entry beats it strictly, or the first list entry attaining the strict
minimum. -/
theorem foldl_minStep_spec :
    ∀ (l : List (Method × ℚ)) (init : Method × ℚ),
      (l.foldl minStep init = init ∧ ∀ kv ∈ l, init.2 ≤ kv.2)
      ∨ ∃ i, ∃ hi : i < l.length,
          l.foldl minStep init = l.get ⟨i, hi⟩
          ∧ (l.get ⟨i, hi⟩).2 < init.2
          ∧ (∀ j, ∀ hj : j < l.length, (l.get ⟨i, hi⟩).2 ≤ (l.get ⟨j, hj⟩).2)
          ∧ (∀ j, ∀ hj : j < l.length, j < i → (l.get ⟨i, hi⟩).2 < (l.get ⟨j, hj⟩).2) := by
  intro l
  induction l with
  | nil => intro init; exact Or.inl ⟨rfl, by simp⟩
  | cons x rest ih =>
    intro init
    by_cases hx : x.2 < init.2
    · have hstep : (x :: rest).foldl minStep init = rest.foldl minStep x := by
        simp [List.foldl_cons, minStep, hx]
      rcases ih x with ⟨hres, hall⟩ | ⟨i, hi, hres, hlt, hle, hstrict⟩
      · refine Or.inr ⟨0, by simp, ?_, hx, ?_, ?_⟩
        · rw [hstep, hres]; rfl
        · intro j hj
          cases j with
          | zero => exact le_refl _
          | succ j' =>
            have hj' : j' < rest.length := by simpa using hj
            exact hall (rest.get ⟨j', hj'⟩) (rest.get_mem _ _)
        · intro j hj hjlt; omega
      · refine Or.inr ⟨i + 1, by simpa using Nat.succ_lt_succ hi, ?_, ?_, ?_, ?_⟩
        · rw [hstep, hres]; rfl
        · exact lt_trans hlt hx
        · intro j hj
          cases j with
          | zero => exact le_of_lt hlt
          | succ j' =>
            have hj' : j' < rest.length := by simpa using hj
            exact hle j' hj'
        · intro j hj hjlt
          cases j with
          | zero => exact hlt
          | succ j' =>
            have hj' : j' < rest.length := by simpa using hj
            exact hstrict j' hj' (by omega)
    · have hstep : (x :: rest).foldl minStep init = rest.foldl minStep init := by
        simp [List.foldl_cons, minStep, hx]
      have hxle : init.2 ≤ x.2 := le_of_not_lt hx
      rcases ih init with ⟨hres, hall⟩ | ⟨i, hi, hres, hlt, hle, hstrict⟩
      · refine Or.inl ⟨by rw [hstep, hres], ?_⟩
        intro kv hkv
        rcases List.mem_cons.mp hkv with h | h
        · exact h ▸ hxle
        · exact hall kv h
      · refine Or.inr ⟨i + 1, by simpa using Nat.succ_lt_succ hi, ?_, hlt, ?_, ?_⟩
        · rw [hstep, hres]; rfl
        · intro j hj
          cases j with
          | zero => exact le_of_lt (lt_of_lt_of_le hlt hxle)
          | succ j' =>
            have hj' : j' < rest.length := by simpa using hj
            exact hle j' hj'
        · intro j hj hjlt
          cases j with
          | zero => exact lt_of_lt_of_le hlt hxle
          | succ j' =>
            have hj' : j' < rest.length := by simpa using hj
            exact hstrict j' hj' (by omega)

/-- Fold `pyMinByVal` over keyed pairs selects the first method attaining the
minimal key. -/
theorem pyMinByVal_argmin (g : Method → ℚ) (ms : List Method) (hms : ms ≠ []) :
    ∃ k, ∃ hk : k < ms.length,
      pyMinByVal (ms.map (fun m => (m, g m))) = some (ms.get ⟨k, hk⟩)
      ∧ (∀ j, ∀ hj : j < ms.length, g (ms.get ⟨k, hk⟩) ≤ g (ms.get ⟨j, hj⟩))
      ∧ (∀ j, ∀ hj : j < ms.length, j < k → g (ms.get ⟨k, hk⟩) < g (ms.get ⟨j, hj⟩)) := by
  cases ms with
  | nil => exact absurd rfl hms
  | cons m0 rest =>
    have hget : ∀ (j : ℕ) (hj : j < rest.length),
        (rest.map (fun m => (m, g m))).get ⟨j, by simpa using hj⟩
          = (rest.get ⟨j, hj⟩, g (rest.get ⟨j, hj⟩)) := by
      intro j hj
      simp
    rcases foldl_minStep_spec (rest.map (fun m => (m, g m))) (m0, g m0) with
      ⟨hres, hall⟩ | ⟨i, hi, hres, hlt, hle, hstrict⟩
    · refine ⟨0, by simp, ?_, ?_, ?_⟩
      · show some (((rest.map (fun m => (m, g m))).foldl minStep (m0, g m0)).1) = some m0
        rw [hres]
      · intro j hj
        cases j with
        | zero => exact le_refl _
        | succ j' =>
          have hj' : j' < rest.length := by simpa using hj
          have := hall (rest.get ⟨j', hj'⟩, g (rest.get ⟨j', hj'⟩))
            (by exact List.mem_map_of_mem _ (rest.get_mem _ _))
          simpa using this
      · intro j hj hjlt; omega
    · have hi' : i < rest.length := by simpa using hi
      refine ⟨i + 1, by simpa using Nat.succ_lt_succ hi', ?_, ?_, ?_⟩
      · show some (((rest.map (fun m => (m, g m))).foldl minStep (m0, g m0)).1)
          = some ((m0 :: rest).get ⟨i + 1, _⟩)
        rw [hres, hget i hi']
        rfl
      · intro j hj
        have hkval : ((rest.map (fun m => (m, g m))).get ⟨i, hi⟩).2
            = g (rest.get ⟨i, hi'⟩) := by rw [hget i hi']
        have hkmth : ((m0 :: rest).get ⟨i + 1, by simpa using Nat.succ_lt_succ hi'⟩)
            = rest.get ⟨i, hi'⟩ := rfl
        rw [hkmth]
        cases j with
        | zero =>
          rw [← hkval]
          exact le_of_lt hlt
        | succ j' =>
          have hj' : j' < rest.length := by simpa using hj
          have := hle j' (by simpa using hj')
          rw [hkval, hget j' hj'] at this
          exact this
      · intro j hj hjlt
        have hkval : ((rest.map (fun m => (m, g m))).get ⟨i, hi⟩).2
            = g (rest.get ⟨i, hi'⟩) := by rw [hget i hi']
        have hkmth : ((m0 :: rest).get ⟨i + 1, by simpa using Nat.succ_lt_succ hi'⟩)
            = rest.get ⟨i, hi'⟩ := rfl
        rw [hkmth]
        cases j with
        | zero =>
          rw [← hkval]
          exact hlt
        | succ j' =>
          have hj' : j' < rest.length := by simpa using hj
          have := hstrict j' (by simpa using hj') (by omega)
          rw [hkval, hget j' hj'] at this
          exact this

/-- C4: for every analysis over non-empty `methods` and `n_values`, the
`winner` is the method whose absolute error at the largest requested `n` is
smallest, with exact ties resolved in favour of the method listed first. -/
theorem winner_is_first_argmin (exact_integral : (ℚ → ℚ) → ℚ → ℚ → ℚ × ℚ)
    (f : ℚ → ℚ) (a b : ℚ) (methods : List Method) (n_values : List ℕ)
    (hm : methods ≠ []) (hn : n_values ≠ []) :
    ∃ nmax, nmax ∈ n_values ∧ (∀ y ∈ n_values, y ≤ nmax)
      ∧ ∃ k, ∃ hk : k < methods.length,
        (analyze_convergence exact_integral f a b methods n_values).winner
            = some (methods.get ⟨k, hk⟩)
        ∧ (∀ j, ∀ hj : j < methods.length,
            |compute_integral f a b nmax (methods.get ⟨k, hk⟩)
                - (exact_integral f a b).1|
              ≤ |compute_integral f a b nmax (methods.get ⟨j, hj⟩)
                - (exact_integral f a b).1|)
        ∧ (∀ j, ∀ hj : j < methods.length, j < k →
            |compute_integral f a b nmax (methods.get ⟨k, hk⟩)
                - (exact_integral f a b).1|
              < |compute_integral f a b nmax (methods.get ⟨j, hj⟩)
                - (exact_integral f a b).1|) := by
  obtain ⟨nmax, hlast, hmem, hmax⟩ := pySorted_getLast n_values hn
  refine ⟨nmax, hmem, hmax, ?_⟩
  have hwin : (analyze_convergence exact_integral f a b methods n_values).winner
      = pyMinByVal (methods.map
          (fun m => (m, |compute_integral f a b nmax m - (exact_integral f a b).1|))) := by
    show pyMinByVal (final_errors (exact_integral f a b).1 f a b methods n_values) = _
    rw [final_errors_eq _ f a b methods n_values nmax hlast]
  obtain ⟨k, hk, hsel, hle, hstrict⟩ := pyMinByVal_argmin
    (fun m => |compute_integral f a b nmax m - (exact_integral f a b).1|) methods hm
  exact ⟨k, hk, hwin.trans hsel, hle, hstrict⟩

/-- Witness for C4 at a concrete analysis over one method and one `n`. -/
theorem winner_is_first_argmin_witness :
    ([Method.trapezoidal] : List Method) ≠ [] ∧ ([1] : List ℕ) ≠ []
    ∧ (∃ nmax, nmax ∈ ([1] : List ℕ) ∧ (∀ y ∈ ([1] : List ℕ), y ≤ nmax)
      ∧ ∃ k, ∃ hk : k < ([Method.trapezoidal] : List Method).length,
        (analyze_convergence (fun _ _ _ => (0, 0)) (fun _ => 0) 0 1
            [Method.trapezoidal] [1]).winner
            = some (([Method.trapezoidal] : List Method).get ⟨k, hk⟩)
        ∧ (∀ j, ∀ hj : j < ([Method.trapezoidal] : List Method).length,
            |compute_integral (fun _ => 0) 0 1 nmax
                (([Method.trapezoidal] : List Method).get ⟨k, hk⟩)
                - ((fun (_ : ℚ → ℚ) (_ _ : ℚ) => ((0 : ℚ), (0 : ℚ))) (fun _ => 0) 0 1).1|
              ≤ |compute_integral (fun _ => 0) 0 1 nmax
                (([Method.trapezoidal] : List Method).get ⟨j, hj⟩)
                - ((fun (_ : ℚ → ℚ) (_ _ : ℚ) => ((0 : ℚ), (0 : ℚ))) (fun _ => 0) 0 1).1|)
        ∧ (∀ j, ∀ hj : j < ([Method.trapezoidal] : List Method).length, j < k →
            |compute_integral (fun _ => 0) 0 1 nmax
                (([Method.trapezoidal] : List Method).get ⟨k, hk⟩)
                - ((fun (_ : ℚ → ℚ) (_ _ : ℚ) => ((0 : ℚ), (0 : ℚ))) (fun _ => 0) 0 1).1|
              < |compute_integral (fun _ => 0) 0 1 nmax
                (([Method.trapezoidal] : List Method).get ⟨j, hj⟩)
                - ((fun (_ : ℚ → ℚ) (_ _ : ℚ) => ((0 : ℚ), (0 : ℚ))) (fun _ => 0) 0 1).1|)) :=
  ⟨by decide, by decide,
    winner_is_first_argmin (fun _ _ _ => (0, 0)) (fun _ => 0) 0 1
      [Method.trapezoidal] [1] (by decide) (by decide)⟩

/-- Witness for C1 at the concrete request `n = 5`, `f = id`, `[a,b] = [0,1]`. -/
theorem simpson_coerces_but_reports_original_witness :
    (5 : ℕ) % 2 = 1
      ∧ (simpsons_rule (fun x => x) 0 1 5 = simpsons_rule (fun x => x) 0 1 (5 + 1)
        ∧ (methodRecords (1/2) (fun x => x) 0 1 Method.simpson [5]).map
            (fun r => (r.n, r.h)) = [(5, (1 - 0) / ((5 : ℕ) : ℚ))]) :=
  ⟨by decide, simpson_coerces_but_reports_original (fun x => x) 0 1 5 (1/2) (by decide)⟩

end NumInt

namespace NumInt

/-- JavaScript regex class `\\d`: the ASCII digits. -/
def isDigitCh (c : Char) : Bool :=
  48 ≤ c.toNat && c.toNat ≤ 57

/-- JavaScript regex class `[a-zA-Z]`. -/
def isAlphaCh (c : Char) : Bool :=
  (97 ≤ c.toNat && c.toNat ≤ 122) || (65 ≤ c.toNat && c.toNat ≤ 90)

/-- First pass of `normalizeForBackend`: `.replace(/\^/g, "**")`. -/
def caretToStars : List Char → List Char
  | [] => []
  | c :: rest => if c = '^' then '*' :: '*' :: caretToStars rest else c :: caretToStars rest

/-- A global regex replace of a two-character pattern `p` by the same pair
with `*` inserted between: scan left to right and resume after each match,
as `String.prototype.replace` does with a global regex. -/
def insertStar (p : Char → Char → Bool) : List Char → List Char
  | c1 :: c2 :: rest =>
      if p c1 c2 then c1 :: '*' :: c2 :: insertStar p rest
      else c1 :: insertStar p (c2 :: rest)
  | l => l

/-- The match condition of the letter-digit pass
`/([a-zA-Z])(\d)(?![*])/` with the callback guard
`offset >= 2 && str.slice(offset-2, offset) === "**"`: `p2, p1` are the two
characters before the letter and `la` the character after the digit. -/
def ldMatch (p2 p1 : Option Char) (c1 c2 : Char) (la : Option Char) : Bool :=
  isAlphaCh c1 && isDigitCh c2 && !(la == some '*')
    && !(p2 == some '*' && p1 == some '*')

/-- The letter-digit pass of `normalizeForBackend` (`x2 → x*2` except after
`**` or before `*`), threading the two previous characters of the input. -/
def insertMulLD : Option Char → Option Char → List Char → List Char
  | p2, p1, c1 :: c2 :: rest =>
      if ldMatch p2 p1 c1 c2 rest.head? then
        c1 :: '*' :: c2 :: insertMulLD (some c1) (some c2) rest
      else c1 :: insertMulLD p1 (some c1) (c2 :: rest)
  | _, _, l => l

/-- Pattern of `/(\d)([a-zA-Z])/g` (`2x → 2*x`). -/
def pDL (c1 c2 : Char) : Bool := isDigitCh c1 && isAlphaCh c2

/-- Pattern of `/\)\(/g` (`)( → )*(`). -/
def pPP (c1 c2 : Char) : Bool := c1 == ')' && c2 == '('

/-- Pattern of `/(\d)\(/g` (`2( → 2*(`). -/
def pDP (c1 c2 : Char) : Bool := isDigitCh c1 && c2 == '('

/-- Pattern of `/\)(\d)/g` (`)2 → )*2`). -/
def pPD (c1 c2 : Char) : Bool := c1 == ')' && isDigitCh c2

/-- Function `normalizeForBackend(expr)` from `MathCalculator`: the empty string is
returned unchanged (`if (!expr) return ""`), otherwise the six replacement
passes run in source order: `^ → **`, digit-letter, letter-digit (with the
`(?![*])` lookahead and `**` lookback guards), `)( → )*(`, `2( → 2*(`,
`)2 → )*2`. -/
def normalizeForBackend (s : String) : String :=
  if s = "" then ""
  else ⟨insertStar pPD (insertStar pDP (insertStar pPP
        (insertMulLD none none (insertStar pDL (caretToStars s.toList)))))⟩

/-- No two adjacent characters match the pattern `q`. -/
def NoAdj (q : Char → Char → Bool) : List Char → Prop
  | c1 :: c2 :: rest => q c1 c2 = false ∧ NoAdj q (c2 :: rest)
  | _ => True

/-- No position matches the guarded letter-digit pattern, with left context
`p2, p1`. -/
def NoLD : Option Char → Option Char → List Char → Prop
  | p2, p1, c1 :: c2 :: rest =>
      ldMatch p2 p1 c1 c2 rest.head? = false ∧ NoLD p1 (some c1) (c2 :: rest)
  | _, _, _ => True

/-- ASCII digits are not ASCII letters. -/
theorem digit_not_alpha (c : Char) (h : isDigitCh c = true) : isAlphaCh c = false := by
  unfold isDigitCh at h
  unfold isAlphaCh
  simp only [Bool.and_eq_true, decide_eq_true_eq] at h
  simp only [Bool.or_eq_false_iff, Bool.and_eq_false_iff]
  constructor
  · left
    simp only [decide_eq_false_iff_not]
    omega
  · left
    simp only [decide_eq_false_iff_not]
    omega

/-- A digit is not the character `)`. -/
theorem digit_not_rparen (c : Char) (h : isDigitCh c = true) : (c == ')') = false := by
  have hne : c ≠ ')' := by
    intro hc
    subst hc
    simp [isDigitCh] at h
  simpa using hne

/-- The head of `insertStar` output is the head of its input. -/
theorem insertStar_head (p : Char → Char → Bool) (l : List Char) :
    (insertStar p l).head? = l.head? := by
  cases l with
  | nil => rfl
  | cons c1 t =>
    cases t with
    | nil => rfl
    | cons c2 rest =>
      unfold insertStar
      split <;> rfl

/-- The head of `insertMulLD` output is the head of its input. -/
theorem insertMulLD_head (p2 p1 : Option Char) (l : List Char) :
    (insertMulLD p2 p1 l).head? = l.head? := by
  cases l with
  | nil => rfl
  | cons c1 t =>
    cases t with
    | nil => rfl
    | cons c2 rest =>
      unfold insertMulLD
      split <;> rfl

/-- A string with no caret is a fixed point of the caret pass. -/
theorem caretToStars_fixed : ∀ l : List Char, (∀ c ∈ l, c ≠ '^') → caretToStars l = l
  | [], _ => rfl
  | c :: rest, h => by
    unfold caretToStars
    rw [if_neg (h c (by simp))]
    rw [caretToStars_fixed rest (fun c hc => h c (by simp [hc]))]

/-- A string with no adjacent `q`-pair is a fixed point of `insertStar q`. -/
theorem insertStar_fixed (q : Char → Char → Bool) :
    ∀ l : List Char, NoAdj q l → insertStar q l = l
  | [], _ => rfl
  | [c], _ => rfl
  | c1 :: c2 :: rest, h => by
    unfold insertStar
    rw [if_neg (by simp [h.1])]
    rw [insertStar_fixed q (c2 :: rest) h.2]

/-- A string with no guarded letter-digit match is a fixed point of the
letter-digit pass. -/
theorem insertMulLD_fixed :
    ∀ (l : List Char) (p2 p1 : Option Char), NoLD p2 p1 l → insertMulLD p2 p1 l = l
  | [], _, _, _ => rfl
  | [c], _, _, _ => rfl
  | c1 :: c2 :: rest, p2, p1, h => by
    unfold insertMulLD
    rw [if_neg (by simp [h.1])]
    rw [insertMulLD_fixed (c2 :: rest) p1 (some c1) h.2]

end NumInt

namespace NumInt

/-- The caret pass removes every caret. -/
theorem caretToStars_no_caret : ∀ l : List Char, ∀ c ∈ caretToStars l, c ≠ '^'
  | [], c, hc => by simp [caretToStars] at hc
  | c0 :: rest, c, hc => by
    unfold caretToStars at hc
    by_cases h0 : c0 = '^'
    · rw [if_pos h0] at hc
      simp only [List.mem_cons] at hc
      rcases hc with h | h | h
      · subst h; decide
      · subst h; decide
      · exact caretToStars_no_caret rest c h
    · rw [if_neg h0] at hc
      simp only [List.mem_cons] at hc
      rcases hc with h | h
      · exact h ▸ h0
      · exact caretToStars_no_caret rest c h

/-- Every character of `insertStar` output is an input character or `*`. -/
theorem insertStar_chars (p : Char → Char → Bool) :
    ∀ l : List Char, ∀ c ∈ insertStar p l, c ∈ l ∨ c = '*'
  | [], c, hc => by simp [insertStar] at hc
  | [c0], c, hc => by
    simp only [insertStar] at hc
    simp at hc
    simp [hc]
  | c1 :: c2 :: rest, c, hc => by
    unfold insertStar at hc
    by_cases hp : p c1 c2
    · rw [if_pos hp] at hc
      simp only [List.mem_cons] at hc
      rcases hc with h | h | h | h
      · exact Or.inl (by simp [h])
      · exact Or.inr h
      · exact Or.inl (by simp [h])
      · rcases insertStar_chars p rest c h with h2 | h2
        · exact Or.inl (by simp [h2])
        · exact Or.inr h2
    · rw [if_neg hp] at hc
      simp only [List.mem_cons] at hc
      rcases hc with h | h
      · exact Or.inl (by simp [h])
      · rcases insertStar_chars p (c2 :: rest) c h with h2 | h2
        · exact Or.inl (by simpa using Or.inr h2)
        · exact Or.inr h2

/-- Every character of `insertMulLD` output is an input character or `*`. -/
theorem insertMulLD_chars :
    ∀ (l : List Char) (p2 p1 : Option Char), ∀ c ∈ insertMulLD p2 p1 l, c ∈ l ∨ c = '*'
  | [], _, _, c, hc => by simp [insertMulLD] at hc
  | [c0], _, _, c, hc => by
    simp only [insertMulLD] at hc
    simp at hc
    simp [hc]
  | c1 :: c2 :: rest, p2, p1, c, hc => by
    unfold insertMulLD at hc
    by_cases hp : ldMatch p2 p1 c1 c2 rest.head? = true
    · rw [if_pos hp] at hc
      simp only [List.mem_cons] at hc
      rcases hc with h | h | h | h
      · exact Or.inl (by simp [h])
      · exact Or.inr h
      · exact Or.inl (by simp [h])
      · rcases insertMulLD_chars rest (some c1) (some c2) c h with h2 | h2
        · exact Or.inl (by simp [h2])
        · exact Or.inr h2
    · rw [if_neg hp] at hc
      simp only [List.mem_cons] at hc
      rcases hc with h | h
      · exact Or.inl (by simp [h])
      · rcases insertMulLD_chars (c2 :: rest) p1 (some c1) c h with h2 | h2
        · exact Or.inl (by simpa using Or.inr h2)
        · exact Or.inr h2

/-- Pass `insertStar p` leaves no adjacent `p`-pair behind, provided `p` never
matches against `*` and two overlapping matches are impossible. -/
theorem insertStar_self (p : Char → Char → Bool)
    (hpp : ∀ a b c, p a b = true → p b c = false)
    (hsr : ∀ a, p a '*' = false) (hsl : ∀ a, p '*' a = false) :
    ∀ l : List Char, NoAdj p (insertStar p l)
  | [] => trivial
  | [c] => trivial
  | c1 :: c2 :: rest => by
    unfold insertStar
    by_cases hp : p c1 c2 = true
    · rw [if_pos hp]
      refine ⟨hsr c1, hsl c2, ?_⟩
      cases rest with
      | nil => trivial
      | cons r r2 =>
        have hh := insertStar_head p (r :: r2)
        cases hrest : insertStar p (r :: r2) with
        | nil => rw [hrest] at hh; simp at hh
        | cons t T2 =>
          rw [hrest] at hh
          simp only [List.head?_cons] at hh
          have ht : t = r := Option.some_inj.mp hh
          have htail := insertStar_self p hpp hsr hsl (r :: r2)
          rw [hrest] at htail
          refine ⟨?_, htail⟩
          rw [ht]
          exact hpp c1 c2 r hp
    · rw [if_neg hp]
      have hh := insertStar_head p (c2 :: rest)
      cases hrest : insertStar p (c2 :: rest) with
      | nil => rw [hrest] at hh; simp at hh
      | cons t T2 =>
        rw [hrest] at hh
        simp only [List.head?_cons] at hh
        have ht : t = c2 := Option.some_inj.mp hh
        have htail := insertStar_self p hpp hsr hsl (c2 :: rest)
        rw [hrest] at htail
        refine ⟨?_, htail⟩
        rw [ht]
        simpa using hp

end NumInt

namespace NumInt

/-- A pair whose second character is not a digit never matches. -/
theorem ldMatch_false_digit (p2 p1 : Option Char) (c1 c2 : Char) (la : Option Char)
    (h : isDigitCh c2 = false) : ldMatch p2 p1 c1 c2 la = false := by
  simp [ldMatch, h]

/-- A pair whose first character is not a letter never matches. -/
theorem ldMatch_false_alpha (p2 p1 : Option Char) (c1 c2 : Char) (la : Option Char)
    (h : isAlphaCh c1 = false) : ldMatch p2 p1 c1 c2 la = false := by
  simp [ldMatch, h]

/-- A pair preceded by two stars never matches (the `**` lookback guard). -/
theorem ldMatch_false_lookback (p2 p1 : Option Char) (c1 c2 : Char) (la : Option Char)
    (h2 : p2 = some '*') (h1 : p1 = some '*') : ldMatch p2 p1 c1 c2 la = false := by
  simp [ldMatch, h2, h1]

/-- A pair followed by a star never matches (the `(?![*])` lookahead). -/
theorem ldMatch_false_lookahead (p2 p1 : Option Char) (c1 c2 : Char) (la : Option Char)
    (h : la = some '*') : ldMatch p2 p1 c1 c2 la = false := by
  simp [ldMatch, h]

/-- The four reasons a guarded letter-digit match can fail. -/
theorem ldMatch_cases (p2 p1 : Option Char) (c1 c2 : Char) (la : Option Char)
    (h : ldMatch p2 p1 c1 c2 la = false) :
    isAlphaCh c1 = false ∨ isDigitCh c2 = false ∨ la = some '*'
      ∨ (p2 = some '*' ∧ p1 = some '*') := by
  by_contra hc
  push_neg at hc
  obtain ⟨ha, hb, hla, hlb⟩ := hc
  have ha' : isAlphaCh c1 = true := by simpa using ha
  have hb' : isDigitCh c2 = true := by simpa using hb
  simp only [ldMatch, ha', hb', Bool.true_and, Bool.and_eq_false_iff,
    beq_iff_eq, Bool.not_eq_false, Bool.and_eq_true] at h
  rcases h with h | h
  · exact hla (by simpa using h)
  · have h2 : p2 = some '*' ∧ p1 = some '*' := by simpa using h
    exact hlb h2.1 h2.2

/-- Pass `insertStar p` preserves the absence of adjacent `q`-pairs, provided `q`
never matches against the inserted `*`. -/
theorem insertStar_preserves_NoAdj (p q : Char → Char → Bool)
    (hq1 : ∀ a, q a '*' = false) (hq2 : ∀ a, q '*' a = false) :
    ∀ l : List Char, NoAdj q l → NoAdj q (insertStar p l)
  | [], _ => trivial
  | [_], _ => trivial
  | c1 :: c2 :: rest, h => by
    unfold insertStar
    by_cases hp : p c1 c2 = true
    · rw [if_pos hp]
      refine ⟨hq1 c1, hq2 c2, ?_⟩
      cases rest with
      | nil => trivial
      | cons r r2 =>
        have hh := insertStar_head p (r :: r2)
        cases hrest : insertStar p (r :: r2) with
        | nil => rw [hrest] at hh; simp at hh
        | cons t T2 =>
          rw [hrest] at hh
          simp only [List.head?_cons] at hh
          have ht : t = r := Option.some_inj.mp hh
          have htail := insertStar_preserves_NoAdj p q hq1 hq2 (r :: r2) h.2.2
          rw [hrest] at htail
          refine ⟨?_, htail⟩
          rw [ht]
          exact h.2.1
    · rw [if_neg hp]
      have hh := insertStar_head p (c2 :: rest)
      cases hrest : insertStar p (c2 :: rest) with
      | nil => trivial
      | cons t T2 =>
        rw [hrest] at hh
        simp only [List.head?_cons] at hh
        have ht : t = c2 := Option.some_inj.mp hh
        have htail := insertStar_preserves_NoAdj p q hq1 hq2 (c2 :: rest) h.2
        rw [hrest] at htail
        refine ⟨?_, htail⟩
        rw [ht]
        exact h.1

/-- The letter-digit pass preserves the absence of adjacent `q`-pairs,
provided `q` never matches against the inserted `*`. -/
theorem insertMulLD_preserves_NoAdj (q : Char → Char → Bool)
    (hq1 : ∀ a, q a '*' = false) (hq2 : ∀ a, q '*' a = false) :
    ∀ (l : List Char) (p2 p1 : Option Char), NoAdj q l → NoAdj q (insertMulLD p2 p1 l)
  | [], _, _, _ => trivial
  | [_], _, _, _ => trivial
  | c1 :: c2 :: rest, p2, p1, h => by
    unfold insertMulLD
    by_cases hp : ldMatch p2 p1 c1 c2 rest.head? = true
    · rw [if_pos hp]
      refine ⟨hq1 c1, hq2 c2, ?_⟩
      cases rest with
      | nil => trivial
      | cons r r2 =>
        have hh := insertMulLD_head (some c1) (some c2) (r :: r2)
        cases hrest : insertMulLD (some c1) (some c2) (r :: r2) with
        | nil => rw [hrest] at hh; simp at hh
        | cons t T2 =>
          rw [hrest] at hh
          simp only [List.head?_cons] at hh
          have ht : t = r := Option.some_inj.mp hh
          have htail := insertMulLD_preserves_NoAdj q hq1 hq2 (r :: r2)
            (some c1) (some c2) h.2.2
          rw [hrest] at htail
          refine ⟨?_, htail⟩
          rw [ht]
          exact h.2.1
    · rw [if_neg hp]
      have hh := insertMulLD_head p1 (some c1) (c2 :: rest)
      cases hrest : insertMulLD p1 (some c1) (c2 :: rest) with
      | nil => trivial
      | cons t T2 =>
        rw [hrest] at hh
        simp only [List.head?_cons] at hh
        have ht : t = c2 := Option.some_inj.mp hh
        have htail := insertMulLD_preserves_NoAdj q hq1 hq2 (c2 :: rest) p1 (some c1) h.2
        rw [hrest] at htail
        refine ⟨?_, htail⟩
        rw [ht]
        exact h.1

end NumInt

namespace NumInt

/-- The letter-digit pass leaves no guarded match behind: its output
satisfies `NoLD` for any left context compatible with the threaded one (the
character just before agrees, and the one before that is either the
original or an inserted `*`). -/
theorem insertMulLD_self :
    ∀ (l : List Char) (p2 p1 q2 : Option Char), (q2 = p2 ∨ q2 = some '*') →
      NoLD q2 p1 (insertMulLD p2 p1 l)
  | [], _, _, _, _ => trivial
  | [_], _, _, _, _ => trivial
  | c1 :: c2 :: rest, p2, p1, q2, hq2 => by
    unfold insertMulLD
    by_cases hp : ldMatch p2 p1 c1 c2 rest.head? = true
    · rw [if_pos hp]
      have hdig : isDigitCh c2 = true := by
        simp only [ldMatch, Bool.and_eq_true] at hp
        exact hp.1.1.2
      have hT := insertMulLD_self rest (some c1) (some c2) (some '*') (Or.inr rfl)
      refine ⟨ldMatch_false_digit _ _ _ _ _ (by decide), ?_⟩
      refine ⟨ldMatch_false_alpha _ _ _ _ _ (by decide), ?_⟩
      cases hrest2 : insertMulLD (some c1) (some c2) rest with
      | nil => trivial
      | cons t T2 =>
        rw [hrest2] at hT
        exact ⟨ldMatch_false_alpha _ _ _ _ _ (digit_not_alpha c2 hdig), hT⟩
    · rw [if_neg hp]
      have hp' : ldMatch p2 p1 c1 c2 rest.head? = false := by simpa using hp
      have hT := insertMulLD_self (c2 :: rest) p1 (some c1) p1 (Or.inl rfl)
      have hh := insertMulLD_head p1 (some c1) (c2 :: rest)
      cases hrest2 : insertMulLD p1 (some c1) (c2 :: rest) with
      | nil => trivial
      | cons t T2 =>
        rw [hrest2] at hT hh
        simp only [List.head?_cons] at hh
        have ht : t = c2 := Option.some_inj.mp hh
        refine ⟨?_, hT⟩
        rw [ht]
        rcases ldMatch_cases _ _ _ _ _ hp' with ha | hb | hla | ⟨hb2, hb1⟩
        · exact ldMatch_false_alpha _ _ _ _ _ ha
        · exact ldMatch_false_digit _ _ _ _ _ hb
        · cases rest with
          | nil => simp at hla
          | cons r r2 =>
            simp only [List.head?_cons] at hla
            have hr : r = '*' := Option.some_inj.mp hla
            have hmf : ldMatch p1 (some c1) c2 r r2.head? = false := by
              rw [hr]
              exact ldMatch_false_digit _ _ _ _ _ (by decide)
            have hstep : insertMulLD p1 (some c1) (c2 :: r :: r2)
                = c2 :: insertMulLD (some c1) (some c2) (r :: r2) := by
              conv_lhs => unfold insertMulLD
              rw [if_neg (by simp [hmf])]
            rw [hstep] at hrest2
            injection hrest2 with hc hT2
            have hhead : T2.head? = some '*' := by
              rw [← hT2, insertMulLD_head]
              simp [hr]
            exact ldMatch_false_lookahead _ _ _ _ _ hhead
        · rcases hq2 with hq | hq
          · exact ldMatch_false_lookback _ _ _ _ _ (hq.trans hb2) hb1
          · exact ldMatch_false_lookback _ _ _ _ _ hq hb1

/-- The star-insertion passes preserve `NoLD`, provided the pattern never
matches a letter in second position or a star, so insertions cannot create
or unguard a letter-digit match. -/
theorem insertStar_preserves_NoLD (p : Char → Char → Bool)
    (hna : ∀ a b, p a b = true → isAlphaCh b = false)
    (hns : ∀ a, p a '*' = false) :
    ∀ (l : List Char) (p2 p1 q2 : Option Char), NoLD p2 p1 l →
      (q2 = p2 ∨ q2 = some '*') → NoLD q2 p1 (insertStar p l)
  | [], _, _, _, _, _ => trivial
  | [_], _, _, _, _, _ => trivial
  | c1 :: c2 :: rest, p2, p1, q2, h, hq2 => by
    unfold insertStar
    by_cases hp : p c1 c2 = true
    · rw [if_pos hp]
      have hrec : NoLD (some c1) (some c2) rest := by
        cases rest with
        | nil => trivial
        | cons r r2 => exact h.2.2
      have hT := insertStar_preserves_NoLD p hna hns rest (some c1) (some c2)
        (some '*') hrec (Or.inr rfl)
      refine ⟨ldMatch_false_digit _ _ _ _ _ (by decide), ?_⟩
      refine ⟨ldMatch_false_alpha _ _ _ _ _ (by decide), ?_⟩
      cases hrest2 : insertStar p rest with
      | nil => trivial
      | cons t T2 =>
        rw [hrest2] at hT
        exact ⟨ldMatch_false_alpha _ _ _ _ _ (hna c1 c2 hp), hT⟩
    · rw [if_neg hp]
      have hT := insertStar_preserves_NoLD p hna hns (c2 :: rest) p1 (some c1)
        p1 h.2 (Or.inl rfl)
      have hh := insertStar_head p (c2 :: rest)
      cases hrest2 : insertStar p (c2 :: rest) with
      | nil => trivial
      | cons t T2 =>
        rw [hrest2] at hT hh
        simp only [List.head?_cons] at hh
        have ht : t = c2 := Option.some_inj.mp hh
        refine ⟨?_, hT⟩
        rw [ht]
        rcases ldMatch_cases _ _ _ _ _ h.1 with ha | hb | hla | ⟨hb2, hb1⟩
        · exact ldMatch_false_alpha _ _ _ _ _ ha
        · exact ldMatch_false_digit _ _ _ _ _ hb
        · cases rest with
          | nil => simp at hla
          | cons r r2 =>
            simp only [List.head?_cons] at hla
            have hr : r = '*' := Option.some_inj.mp hla
            have hstep : insertStar p (c2 :: r :: r2) = c2 :: insertStar p (r :: r2) := by
              conv_lhs => unfold insertStar
              rw [if_neg (by rw [hr]; simp [hns c2])]
            rw [hstep] at hrest2
            injection hrest2 with hc hT2
            have hhead : T2.head? = some '*' := by
              rw [← hT2, insertStar_head]
              simp [hr]
            exact ldMatch_false_lookahead _ _ _ _ _ hhead
        · rcases hq2 with hq | hq
          · exact ldMatch_false_lookback _ _ _ _ _ (hq.trans hb2) hb1
          · exact ldMatch_false_lookback _ _ _ _ _ hq hb1

end NumInt

namespace NumInt

/-- ASCII letters are not ASCII digits. -/
theorem alpha_not_digit (c : Char) (h : isAlphaCh c = true) : isDigitCh c = false := by
  cases hd : isDigitCh c
  · rfl
  · rw [digit_not_alpha c hd] at h
    exact absurd h (by simp)

/-- The digit-letter pattern never matches against a star (right). -/
theorem pDL_star_r (a : Char) : pDL a '*' = false := by
  unfold pDL
  rw [show isAlphaCh '*' = false from by decide]
  exact Bool.and_false _

/-- The digit-letter pattern never matches against a star (left). -/
theorem pDL_star_l (a : Char) : pDL '*' a = false := by
  unfold pDL
  rw [show isDigitCh '*' = false from by decide]
  exact Bool.false_and _

/-- Two digit-letter matches cannot overlap. -/
theorem pDL_no_overlap (a b c : Char) (h : pDL a b = true) : pDL b c = false := by
  unfold pDL at h ⊢
  simp only [Bool.and_eq_true] at h
  rw [alpha_not_digit b h.2]
  exact Bool.false_and _

/-- The `)(` pattern never matches against a star (right). -/
theorem pPP_star_r (a : Char) : pPP a '*' = false := by
  unfold pPP
  rw [show (('*' : Char) == '(') = false from by decide]
  exact Bool.and_false _

/-- The `)(` pattern never matches against a star (left). -/
theorem pPP_star_l (a : Char) : pPP '*' a = false := by
  unfold pPP
  rw [show (('*' : Char) == ')') = false from by decide]
  exact Bool.false_and _

/-- Two `)(` matches cannot overlap. -/
theorem pPP_no_overlap (a b c : Char) (h : pPP a b = true) : pPP b c = false := by
  unfold pPP at h ⊢
  simp only [Bool.and_eq_true, beq_iff_eq] at h
  rw [h.2]
  rw [show (('(' : Char) == ')') = false from by decide]
  exact Bool.false_and _

/-- The matched second character of `)(` is not a letter. -/
theorem pPP_hna (a b : Char) (h : pPP a b = true) : isAlphaCh b = false := by
  unfold pPP at h
  simp only [Bool.and_eq_true, beq_iff_eq] at h
  rw [h.2]
  decide

/-- The `2(` pattern never matches against a star (right). -/
theorem pDP_star_r (a : Char) : pDP a '*' = false := by
  unfold pDP
  rw [show (('*' : Char) == '(') = false from by decide]
  exact Bool.and_false _

/-- The `2(` pattern never matches against a star (left). -/
theorem pDP_star_l (a : Char) : pDP '*' a = false := by
  unfold pDP
  rw [show isDigitCh '*' = false from by decide]
  exact Bool.false_and _

/-- Two `2(` matches cannot overlap. -/
theorem pDP_no_overlap (a b c : Char) (h : pDP a b = true) : pDP b c = false := by
  unfold pDP at h ⊢
  simp only [Bool.and_eq_true, beq_iff_eq] at h
  rw [h.2]
  rw [show isDigitCh '(' = false from by decide]
  exact Bool.false_and _

/-- The matched second character of `2(` is not a letter. -/
theorem pDP_hna (a b : Char) (h : pDP a b = true) : isAlphaCh b = false := by
  unfold pDP at h
  simp only [Bool.and_eq_true, beq_iff_eq] at h
  rw [h.2]
  decide

/-- The `)2` pattern never matches against a star (right). -/
theorem pPD_star_r (a : Char) : pPD a '*' = false := by
  unfold pPD
  rw [show isDigitCh '*' = false from by decide]
  exact Bool.and_false _

/-- The `)2` pattern never matches against a star (left). -/
theorem pPD_star_l (a : Char) : pPD '*' a = false := by
  unfold pPD
  rw [show (('*' : Char) == ')') = false from by decide]
  exact Bool.false_and _

/-- Two `)2` matches cannot overlap. -/
theorem pPD_no_overlap (a b c : Char) (h : pPD a b = true) : pPD b c = false := by
  unfold pPD at h ⊢
  simp only [Bool.and_eq_true] at h
  rw [digit_not_rparen b h.2]
  exact Bool.false_and _

/-- The matched second character of `)2` is not a letter. -/
theorem pPD_hna (a b : Char) (h : pPD a b = true) : isAlphaCh b = false := by
  unfold pPD at h
  simp only [Bool.and_eq_true] at h
  exact digit_not_alpha b h.2

/-- Star insertion introduces no caret. -/
theorem no_caret_insertStar (p : Char → Char → Bool) (l : List Char)
    (h : ∀ c ∈ l, c ≠ '^') : ∀ c ∈ insertStar p l, c ≠ '^' := by
  intro c hc
  rcases insertStar_chars p l c hc with h2 | h2
  · exact h c h2
  · rw [h2]
    decide

/-- The letter-digit pass introduces no caret. -/
theorem no_caret_insertMulLD (p2 p1 : Option Char) (l : List Char)
    (h : ∀ c ∈ l, c ≠ '^') : ∀ c ∈ insertMulLD p2 p1 l, c ≠ '^' := by
  intro c hc
  rcases insertMulLD_chars l p2 p1 c hc with h2 | h2
  · exact h c h2
  · rw [h2]
    decide

end NumInt

namespace NumInt

/-- C7: the expression normalization step is idempotent — for every input
string `s`, `normalizeForBackend (normalizeForBackend s) =
normalizeForBackend s`, where the normalization rewrites `^` to `**`,
inserts implicit multiplication (`2x → 2*x`, `x2 → x*2` except after `**`
or before `*`), and inserts multiplication around parentheses
(`)( → )*(`, `2( → 2*(`, `)2 → )*2`). -/
theorem normalizeForBackend_idempotent (s : String) :
    normalizeForBackend (normalizeForBackend s) = normalizeForBackend s := by
  by_cases hs : s = ""
  · rw [hs]
    rfl
  · set u1 := caretToStars s.toList with hu1
    set u2 := insertStar pDL u1 with hu2
    set u3 := insertMulLD none none u2 with hu3
    set u4 := insertStar pPP u3 with hu4
    set u5 := insertStar pDP u4 with hu5
    set L := insertStar pPD u5 with huL
    have hdef : normalizeForBackend s = ⟨L⟩ := by
      unfold normalizeForBackend
      rw [if_neg hs]
    have hcaret : ∀ c ∈ L, c ≠ '^' :=
      no_caret_insertStar pPD u5
        (no_caret_insertStar pDP u4
          (no_caret_insertStar pPP u3
            (no_caret_insertMulLD none none u2
              (no_caret_insertStar pDL u1 (caretToStars_no_caret s.toList)))))
    have hDL : NoAdj pDL L :=
      insertStar_preserves_NoAdj pPD pDL pDL_star_r pDL_star_l u5
        (insertStar_preserves_NoAdj pDP pDL pDL_star_r pDL_star_l u4
          (insertStar_preserves_NoAdj pPP pDL pDL_star_r pDL_star_l u3
            (insertMulLD_preserves_NoAdj pDL pDL_star_r pDL_star_l u2 none none
              (insertStar_self pDL pDL_no_overlap pDL_star_r pDL_star_l u1))))
    have hLD : NoLD none none L :=
      insertStar_preserves_NoLD pPD pPD_hna pPD_star_r u5 none none none
        (insertStar_preserves_NoLD pDP pDP_hna pDP_star_r u4 none none none
          (insertStar_preserves_NoLD pPP pPP_hna pPP_star_r u3 none none none
            (insertMulLD_self u2 none none none (Or.inl rfl)) (Or.inl rfl))
          (Or.inl rfl))
        (Or.inl rfl)
    have hPP : NoAdj pPP L :=
      insertStar_preserves_NoAdj pPD pPP pPP_star_r pPP_star_l u5
        (insertStar_preserves_NoAdj pDP pPP pPP_star_r pPP_star_l u4
          (insertStar_self pPP pPP_no_overlap pPP_star_r pPP_star_l u3))
    have hDP : NoAdj pDP L :=
      insertStar_preserves_NoAdj pPD pDP pDP_star_r pDP_star_l u5
        (insertStar_self pDP pDP_no_overlap pDP_star_r pDP_star_l u4)
    have hPD : NoAdj pPD L :=
      insertStar_self pPD pPD_no_overlap pPD_star_r pPD_star_l u5
    have hfix : insertStar pPD (insertStar pDP (insertStar pPP
        (insertMulLD none none (insertStar pDL (caretToStars L))))) = L := by
      rw [caretToStars_fixed L hcaret, insertStar_fixed pDL L hDL,
        insertMulLD_fixed L none none hLD, insertStar_fixed pPP L hPP,
        insertStar_fixed pDP L hDP, insertStar_fixed pPD L hPD]
    rw [hdef]
    by_cases hL : (⟨L⟩ : String) = ""
    · unfold normalizeForBackend
      rw [if_pos hL]
      exact hL.symm
    · unfold normalizeForBackend
      rw [if_neg hL]
      have htl : (⟨L⟩ : String).toList = L := rfl
      rw [htl, hfix]

end NumInt
